import Mathlib

/-!
Verification development for the Sift photo organizer.

Shallow embedding of the parts of the Rust sources relevant to the
checked properties:

* `src/metadata.rs`   — capture-date extraction (EXIF / filename / mtime ladder);
* `src/index.rs`      — persistent dedup index and its save operation;
* `src/organization.rs` — date-based placement (`organize_by_date`);
* `src/organize.rs`   — the local orchestrator pipeline (`Orchestrator::run`);
* `src/clustering.rs` — DBSCAN over geographic points;
* `src/onedrive.rs`   — mapping of drive items to cloud records.

Modelling conventions:

* Rust `&str` values that are scanned at the byte level are modelled as
  `List Nat` of their UTF-8 bytes; other strings are Lean `String`s.
* Machine floats (`f64`) only ever flow into the code through the distance
  function of the clusterer and the GPS facet; distances are abstracted as a
  parameter `dist : GeoPoint → GeoPoint → ℚ` and coordinates as `ℚ`.
* Fallible I/O is modelled with `Option` / `Except Unit`, where
  `Except.error ()` marks a Rust panic.
* The blake3 digest and the bincode encoding are abstracted as function
  parameters; only determinism and the written bytes matter to the claims.
-/

namespace Sift

/-! ### Calendar dates (chrono `NaiveDate`) -/

/-- A calendar date: year, month (1–12), day (1–31), as in chrono's
`NaiveDate` restricted to the fields the program reads. -/
structure Date where
  year : Int
  month : Nat
  day : Nat
deriving DecidableEq, Repr

/-- Proleptic Gregorian leap-year rule used by chrono. -/
def isLeapYear (y : Int) : Bool :=
  y % 4 == 0 && (y % 100 != 0 || y % 400 == 0)

/-- Number of days of month `m` of year `y` (0 for an invalid month). -/
def daysInMonth (y : Int) (m : Nat) : Nat :=
  if m = 1 then 31
  else if m = 2 then (if isLeapYear y then 29 else 28)
  else if m = 3 then 31
  else if m = 4 then 30
  else if m = 5 then 31
  else if m = 6 then 30
  else if m = 7 then 31
  else if m = 8 then 31
  else if m = 9 then 30
  else if m = 10 then 31
  else if m = 11 then 30
  else if m = 12 then 31
  else 0

/-- chrono `NaiveDate::from_ymd_opt`: `some` exactly on calendar-valid
dates. (chrono additionally bounds the year to ±262142, irrelevant for
the 4-digit years that reach this function here.) -/
def fromYmdOpt (y : Int) (m d : Nat) : Option Date :=
  if 1 ≤ m ∧ m ≤ 12 ∧ 1 ≤ d ∧ d ≤ daysInMonth y m then some ⟨y, m, d⟩ else none

/-! ### Byte-level strings and `extract_date_from_filename`

A Rust `&str` is a UTF-8 byte sequence; indexing `s[i..j]` panics when
`i` or `j` is not a character boundary.  We model the byte sequence as
`List Nat` and the panic as `Except.error ()`. -/

/-- A UTF-8 continuation byte (`0x80 ≤ b < 0xC0`). -/
def isContinuationByte (b : Nat) : Bool :=
  128 ≤ b && b < 192

/-- Rust `str::is_char_boundary`: start, end, or a non-continuation byte. -/
def isCharBoundary (s : List Nat) (i : Nat) : Bool :=
  i == 0 || i == s.length ||
    (match s.get? i with
     | some b => !isContinuationByte b
     | none => false)

/-- ASCII digit byte. -/
def isAsciiDigit (b : Nat) : Bool :=
  48 ≤ b && b ≤ 57

/-- Numeric value of a digit byte. -/
def digitVal (b : Nat) : Nat := b - 48

/-- The test applied to each candidate 8-byte window of the filename scan
(shared by the code-side and claim-side scanners): all bytes ASCII digits
and the `YYYY`/`MM`/`DD` decomposition within the numeric ranges
`2000..=2100` / `1..=12` / `1..=31`; yields `(year, month, day)` on a hit. -/
def windowStep (w : List Nat) : Option (Int × Nat × Nat) :=
  match w with
  | [b0, b1, b2, b3, b4, b5, b6, b7] =>
    if [b0, b1, b2, b3, b4, b5, b6, b7].all isAsciiDigit then
      let y : Int :=
        Int.ofNat (1000 * digitVal b0 + 100 * digitVal b1 +
          10 * digitVal b2 + digitVal b3)
      let m : Nat := 10 * digitVal b4 + digitVal b5
      let d : Nat := 10 * digitVal b6 + digitVal b7
      if 2000 ≤ y ∧ y ≤ 2100 ∧ 1 ≤ m ∧ m ≤ 12 ∧ 1 ≤ d ∧ d ≤ 31 then
        some (y, m, d)
      else none
    else none
  | _ => none

/-- Loop body of `metadata::extract_date_from_filename` over the candidate
start offsets.  At each offset `i` the source slices `&filename[i..i + 8]`
(which panics off a char boundary, modelled as `Except.error ()`), applies
the window test, and on a hit returns `NaiveDate::from_ymd_opt(..)`
directly — also when that is `None`. -/
def extractFilenameLoop (s : List Nat) : List Nat → Except Unit (Option Date)
  | [] => .ok none
  | i :: rest =>
    if isCharBoundary s i && isCharBoundary s (i + 8) then
      match windowStep ((s.drop i).take 8) with
      | some (y, m, d) => .ok (fromYmdOpt y m d)
      | none => extractFilenameLoop s rest
    else .error ()

/-- `metadata::extract_date_from_filename`, over the UTF-8 bytes of the
filename.  The source iterates `i` over `0..filename.len().saturating_sub(7)`. -/
def extract_date_from_filename (s : List Nat) : Except Unit (Option Date) :=
  extractFilenameLoop s (List.range (s.length - 7))

/-- Modelled from the spec (the claim-side reading of §4.B step 2): scan
left-to-right for the first 8-ASCII-digit run whose decomposition passes
the numeric ranges AND is calendar-valid, skipping past calendar-invalid
runs. -/
def claimFilenameLoop (s : List Nat) : List Nat → Option Date
  | [] => none
  | i :: rest =>
    match windowStep ((s.drop i).take 8) with
    | some (y, m, d) =>
      match fromYmdOpt y m d with
      | some date => some date
      | none => claimFilenameLoop s rest
    | none => claimFilenameLoop s rest

/-- Modelled from the spec: the claim-side filename date extractor
(calendar-invalid runs are rejected and scanning continues past them). -/
def claim_extract_date_from_filename (s : List Nat) : Option Date :=
  claimFilenameLoop s (List.range (s.length - 7))

/-- The leftmost window passing the window test, scanning the given start
offsets. -/
def firstRangeRun (s : List Nat) : List Nat → Option (Int × Nat × Nat)
  | [] => none
  | i :: rest =>
    match windowStep ((s.drop i).take 8) with
    | some t => some t
    | none => firstRangeRun s rest

/-- The leftmost 8-digit run of the basename passing the numeric range
checks, as `(year, month, day)`; `none` when no window passes them. -/
def first_range_run (s : List Nat) : Option (Int × Nat × Nat) :=
  firstRangeRun s (List.range (s.length - 7))

/-- UTF-8 bytes of `"20240230_20240101.jpg"`. -/
def bytesInvalidThenValid : List Nat :=
  [50, 48, 50, 52, 48, 50, 51, 48, 95,
   50, 48, 50, 52, 48, 49, 48, 49, 46, 106, 112, 103]

/-- UTF-8 bytes of `"12345678é"` (the `é` is `0xC3 0xA9`). -/
def bytesMultiByte : List Nat :=
  [49, 50, 51, 52, 53, 54, 55, 56, 195, 169]

/-! ### Source files and the capture-date ladder (`metadata.rs`)

A source file is abstracted by the observations the extractor makes of it:
the UTF-8 bytes of its basename, the EXIF `DateTimeOriginal` date (the
result of `extract_exif_date`: `none` when the file has no parseable EXIF
date), and the date portion of its mtime in local time (the result of
`fs::metadata(..).modified()`: `none` when the stat fails). -/

structure SourceFile where
  /-- Full path (directory ++ "/" ++ basename). -/
  path : String
  /-- Basename as a string, used to build destination paths. -/
  basename : String
  /-- UTF-8 bytes of the basename, scanned for a date pattern. -/
  basenameBytes : List Nat
  /-- File content bytes. -/
  content : List Nat
  /-- Result of `extract_exif_date` on this file. -/
  exifDate : Option Date
  /-- Date portion of the mtime in local civil time; `none` on stat failure. -/
  mtimeDate : Option Date
deriving DecidableEq, Repr

/-- `metadata::extract_date_safe`: the mtime date, `none` swallowing errors. -/
def extract_date_safe (f : SourceFile) : Option Date :=
  f.mtimeDate

/-- `metadata::extract_date_with_fallback`: EXIF first, then the filename
pattern, then mtime.  An `Except.error` from the filename scan is a panic
and propagates. -/
def extract_date_with_fallback (f : SourceFile) : Except Unit (Option Date) :=
  match f.exifDate with
  | some d => .ok (some d)
  | none =>
    match extract_date_from_filename f.basenameBytes with
    | .error e => .error e
    | .ok (some d) => .ok (some d)
    | .ok none => .ok (extract_date_safe f)

/-! ### A flat filesystem and `organization::organize_by_date`

The filesystem is a path → content map, newest binding first.  Directory
creation (`create_dir_all`) has no observable effect in this model and the
copy reads the source bytes and binds them at the destination path,
replacing any previous binding — exactly `fs::copy`'s overwrite semantics. -/

/-- Path → content map; the first binding of a path is its content. -/
def FS := List (String × List Nat)
deriving DecidableEq

/-- Content at `p`, if any. -/
def fsLookup (fs : FS) (p : String) : Option (List Nat) :=
  (List.find? (fun e => e.1 == p) fs).map (fun e => e.2)

/-- Bind `p` to `d`, shadowing any previous binding. -/
def fsInsert (fs : FS) (p : String) (d : List Nat) : FS :=
  (p, d) :: fs

/-- Remove every binding of `p`. -/
def fsErase (fs : FS) (p : String) : FS :=
  List.filter (fun e => e.1 ≠ p) fs

/-- Rust `Path::file_name` for the slash-separated paths this model uses:
the last component (the run of characters after the last `/`); `none`
when it is empty. -/
def basenameOf (p : String) : Option String :=
  match p.data.foldl (fun acc c => if c = '/' then [] else acc ++ [c]) [] with
  | [] => none
  | cs => some (String.mk cs)

/-- Two-digit zero padding, as `{:02}` in `format!`. -/
def pad2 (n : Nat) : String :=
  if n < 10 then "0" ++ toString n else toString n

/-- The `format!("{}/{:02}/{:02}", year, month, day)` chronological subpath. -/
def chronoPath (d : Date) : String :=
  toString d.year ++ "/" ++ pad2 d.month ++ "/" ++ pad2 d.day

/-- `organization::organize_by_date`: build `dest_root/YYYY/MM/DD`, create
the directories, and copy the source file there under its basename.
Errors (`Except.error`): invalid file name, or the source is unreadable. -/
def organize_by_date (fs : FS) (sourceFile : String) (destRoot : String)
    (d : Date) : Except Unit (FS × String) :=
  match basenameOf sourceFile with
  | none => .error ()
  | some name =>
    match fsLookup fs sourceFile with
    | none => .error ()
    | some data =>
      let destFile := destRoot ++ "/" ++ chronoPath d ++ "/" ++ name
      .ok (fsInsert fs destFile data, destFile)

/-! ### The local orchestrator pipeline (`organize.rs`) -/

/-- `organize::FileRecord` (the `location` field is always `None` in the
source — GPS extraction is a TODO there — and is omitted).  The record
additionally carries the file bytes the later copy will read, which in the
source are re-read from `record.path`; the source tree is unchanged for
the duration of a run. -/
structure FileRecord where
  path : String
  basename : String
  content : List Nat
  /-- Hex digest string produced by the (abstracted) blake3 hash. -/
  hash : String
  /-- `extract_date_safe` result recorded by the analyze stage. -/
  date : Option Date
deriving DecidableEq, Repr

/-- `organize::OrganizeStats`. -/
structure OrganizeStats where
  files_scanned : Nat
  files_analyzed : Nat
  files_skipped_duplicates : Nat
  files_organized : Nat
  files_failed : Nat
deriving DecidableEq, Repr

/-- The dedup index content (`index::Index`): a digest → original-path map,
newest binding first (`HashMap` lookup sees the newest insert). -/
def IndexM := List (String × String)
deriving DecidableEq

/-- `Index::contains_hash`. -/
def containsHash (idx : IndexM) (h : String) : Bool :=
  List.any idx (fun e => e.1 == h)

/-- `Index::add_entry`: insert, shadowing any previous binding. -/
def addEntry (idx : IndexM) (h p : String) : IndexM :=
  (h, p) :: idx

/-- Persistent state a run starts from and commits: the index content at
`index_path` and the destination tree (the files placed under `dest`). -/
structure PipeState where
  index : IndexM
  dest : FS
deriving DecidableEq

/-- Photo extensions accepted by `Orchestrator::scan_source`. -/
def photoExtensions : List String :=
  ["jpg", "jpeg", "png", "tiff", "raw", "heic"]

/-- ASCII lowercasing; the extensions compared against are all ASCII. -/
def asciiLower (s : String) : String :=
  String.mk (s.data.map (fun c =>
    if 'A' ≤ c ∧ c ≤ 'Z' then Char.ofNat (c.toNat + 32) else c))

/-- Rust `Path::extension` on a basename: the part after the last dot,
except that a leading dot is part of the stem (a hidden file with no
further dot has no extension). -/
def extensionOf (name : String) : Option String :=
  match name.data with
  | [] => none
  | c :: cs =>
    let body := if c = '.' then cs else c :: cs
    (body.foldl
      (fun acc ch => if ch = '.' then some [] else acc.map (fun l => l ++ [ch]))
      none).map String.mk

/-- `Orchestrator::scan_source`: keep the files whose lowercased extension
is a photo extension (the entries are files by construction here). -/
def scan_source (src : List SourceFile) : List SourceFile :=
  List.filter (fun f =>
    match extensionOf f.basename with
    | some ext => photoExtensions.contains (asciiLower ext)
    | none => false) src

/-- `Orchestrator::analyze_files`: hash and extract the date of every
scanned file.  `hash_file` is abstracted as the pure `hashFn` applied to
the content (hashing a readable file does not fail in this model, so the
`filter_map` of the source keeps every file); the date is
`extract_date_safe`, i.e. the mtime date. -/
def analyze_files (hashFn : List Nat → String) (files : List SourceFile) :
    List FileRecord :=
  files.map (fun f =>
    { path := f.path, basename := f.basename, content := f.content,
      hash := hashFn f.content, date := extract_date_safe f })

/-- `Orchestrator::organize_file`: fail records without a date, otherwise
place a copy at `dest_root/YYYY/MM/DD/basename` (via
`organization::organize_by_date`; the copy reads the record's bytes). -/
def organize_file (dest : FS) (destRoot : String) (r : FileRecord) :
    Except Unit (FS × String) :=
  match r.date with
  | none => .error ()
  | some d =>
    let destFile := destRoot ++ "/" ++ chronoPath d ++ "/" ++ r.basename
    .ok (fsInsert dest destFile r.content, destFile)

/-- Stage 5 of `Orchestrator::run`: for each unique record, organize it;
on success count it and add its `(digest, original path)` to the index,
on failure count the failure and continue. -/
def placeLoop (destRoot : String) :
    List FileRecord → IndexM → FS → Nat → Nat → IndexM × FS × Nat × Nat
  | [], idx, dest, organized, failed => (idx, dest, organized, failed)
  | r :: rest, idx, dest, organized, failed =>
    match organize_file dest destRoot r with
    | .ok (dest', _) =>
      placeLoop destRoot rest (addEntry idx r.hash r.path) dest'
        (organized + 1) failed
    | .error _ =>
      placeLoop destRoot rest idx dest organized (failed + 1)

/-- `Orchestrator::run`: scan → analyze → dedup against the loaded index →
place → save the index.  Takes the persisted state the run loads and
returns the state it commits together with the reported stats.  When the
scan finds nothing the source returns early without saving; with no
records the saved state is unchanged either way. -/
def run (hashFn : List Nat → String) (src : List SourceFile)
    (destRoot : String) (st : PipeState) : PipeState × OrganizeStats :=
  let files := scan_source src
  if files.isEmpty then
    (st, { files_scanned := 0, files_analyzed := 0,
           files_skipped_duplicates := 0, files_organized := 0,
           files_failed := 0 })
  else
    let records := analyze_files hashFn files
    let uniq := records.filter (fun r => ¬ containsHash st.index r.hash)
    let skipped := records.countP (fun r => containsHash st.index r.hash)
    let out := placeLoop destRoot uniq st.index st.dest 0 0
    ({ index := out.1, dest := out.2.1 },
     { files_scanned := files.length, files_analyzed := records.length,
       files_skipped_duplicates := skipped,
       files_organized := out.2.2.1, files_failed := out.2.2.2 })

/-! ### The index save operation as a filesystem trace (`index.rs`)

`Index::save_to_file` serializes the index with bincode (abstracted as an
`encode` parameter) and calls `fs::write(path, data)` — one direct write
to the target.  To reason about crash behaviour, a save is modelled as
the list of filesystem operations it performs, and crash states are every
filesystem state reachable when execution stops part-way, a write having
transferred only a prefix of its bytes. -/

/-- A filesystem operation performed while persisting state. -/
inductive FsOp where
  | write (path : String) (data : List Nat)
  | rename (src : String) (dst : String)
deriving DecidableEq, Repr

/-- Effect of a completed operation. -/
def applyOp (fs : FS) : FsOp → FS
  | .write p d => fsInsert fs p d
  | .rename a b =>
    match fsLookup fs a with
    | some d => fsInsert (fsErase fs a) b d
    | none => fs

/-- States observable while one operation is in flight: a write may have
persisted any prefix of its data; a rename is atomic. -/
def midStates (fs : FS) : FsOp → List FS
  | .write p d => (List.range (d.length + 1)).map (fun k => fsInsert fs p (d.take k))
  | .rename a b => [fs, applyOp fs (.rename a b)]

/-- Every filesystem state reachable if the process crashes at any point
while executing `ops` from `fs`. -/
def crashStates (fs : FS) : List FsOp → List FS
  | [] => [fs]
  | op :: rest => midStates fs op ++ crashStates (applyOp fs op) rest

/-- `Index::save_to_file`: serialize, then `fs::write` straight to the
target path. -/
def save_to_file_ops (encode : IndexM → List Nat) (idx : IndexM)
    (path : String) : List FsOp :=
  [.write path (encode idx)]

/-- Modelled from the spec (§4.C "Save is atomic …"): what the claim says a
save does — write the bytes to a sibling temporary path, then rename it
over the target. -/
def IsAtomicReplace (ops : List FsOp) (target : String) : Prop :=
  ∃ tmp data, tmp ≠ target ∧ ops = [.write tmp data, .rename tmp target]

/-! ### Cloud record mapping (`onedrive.rs`) -/

/-- `onedrive::PhotoFacet`. -/
structure PhotoFacet where
  taken_date_time : Option String
  camera_make : Option String
  camera_model : Option String
deriving DecidableEq, Repr

/-- `onedrive::LocationFacet` (`f64` coordinates modelled as `ℚ`). -/
structure LocationFacet where
  latitude : Option ℚ
  longitude : Option ℚ
deriving DecidableEq, Repr

/-- `onedrive::FileHashes`. -/
structure FileHashes where
  quick_xor_hash : Option String
deriving DecidableEq, Repr

/-- `onedrive::FileFacet`. -/
structure FileFacet where
  mime_type : Option String
  hashes : Option FileHashes
deriving DecidableEq, Repr

/-- `onedrive::ParentReference`. -/
structure ParentReference where
  id : Option String
  path : Option String
deriving DecidableEq, Repr

/-- `onedrive::DriveItem`; `deleted` is `Option Bool` standing in for the
opaque `Option<serde_json::Value>` deletion facet. -/
structure DriveItem where
  id : String
  name : String
  photo : Option PhotoFacet
  location : Option LocationFacet
  file : Option FileFacet
  deleted : Option Bool
  parent_reference : Option ParentReference
deriving DecidableEq, Repr

/-- `onedrive::OneDriveRecord` (`NaiveDate` as `Date`, `f64` GPS as `ℚ`). -/
structure OneDriveRecord where
  item_id : String
  name : String
  taken_date : Option Date
  location : Option (ℚ × ℚ)
  quick_xor_hash : Option String
  camera : Option String
  parent_path : Option String
  parent_id : Option String
  deleted : Bool
deriving DecidableEq, Repr

/-- `OneDriveClient::drive_item_to_record`.  RFC 3339 parsing plus the
local-civil-date projection is abstracted as the `parseRfc3339Date`
parameter; every other field is mapped as in the source, in particular
`camera`, which is `"{make} {model}"` when both are present, the make when
only the make is present, and `None` in every other case. -/
def drive_item_to_record (parseRfc3339Date : String → Option Date)
    (item : DriveItem) : OneDriveRecord :=
  { item_id := item.id
    name := item.name
    taken_date := (item.photo.bind (fun p => p.taken_date_time)).bind parseRfc3339Date
    location := item.location.bind (fun l =>
      match l.latitude, l.longitude with
      | some lat, some lon => some (lat, lon)
      | _, _ => none)
    quick_xor_hash := (item.file.bind (fun f => f.hashes)).bind
      (fun h => h.quick_xor_hash)
    camera := item.photo.bind (fun p =>
      match p.camera_make, p.camera_model with
      | some make, some model => some (make ++ " " ++ model)
      | some make, none => some make
      | _, _ => none)
    parent_path := item.parent_reference.bind (fun r => r.path)
    parent_id := item.parent_reference.bind (fun r => r.id)
    deleted := item.deleted.isSome }

/-- Modelled from the spec (§4.H mapping rules, as the claim reads them):
`camera` keeps whichever of make and model is present, omitting the
absent one. -/
def claimCamera (make model : Option String) : Option String :=
  match make, model with
  | some mk, some md => some (mk ++ " " ++ md)
  | some mk, none => some mk
  | none, some md => some md
  | none, none => none

/-! ### Geographic clustering (`clustering.rs`)

`GeoPoint` coordinates are `f64` in the source and `haversine_distance` is
real-valued trigonometry; the clusterer only observes distances through
the comparison `haversine_distance(point, p) <= eps_km`, so the distance
is abstracted as a parameter `dist : GeoPoint → GeoPoint → ℚ` and every
theorem quantifies over it.  The `Vec` used as the seed stack is modelled
top-first: `Vec::push` is `cons` and `Vec::pop` takes the head. -/

/-- `clustering::GeoPoint`. -/
structure GeoPoint where
  id : Nat
  latitude : ℚ
  longitude : ℚ
deriving DecidableEq, Repr

/-- `clustering::find_neighbors`: ids of the points other than `point`
(by id) within `eps` of it. -/
def find_neighbors (dist : GeoPoint → GeoPoint → ℚ) (point : GeoPoint)
    (points : List GeoPoint) (eps : ℚ) : List Nat :=
  (points.filter (fun p => p.id ≠ point.id ∧ dist point p ≤ eps)).map
    (fun p => p.id)

/-- The set of ids occurring in the input. -/
def idSet (points : List GeoPoint) : Finset Nat :=
  (points.map (fun p => p.id)).toFinset

theorem find_neighbors_mem_idSet (dist : GeoPoint → GeoPoint → ℚ)
    (point : GeoPoint) (points : List GeoPoint) (eps : ℚ) (x : Nat)
    (hx : x ∈ find_neighbors dist point points eps) : x ∈ idSet points := by
  simp only [find_neighbors, List.mem_map, List.mem_filter] at hx
  obtain ⟨p, ⟨hp, _⟩, rfl⟩ := hx
  simp only [idSet, List.mem_toFinset, List.mem_map]
  exact ⟨p, hp, rfl⟩

theorem find_neighbors_length_le (dist : GeoPoint → GeoPoint → ℚ)
    (point : GeoPoint) (points : List GeoPoint) (eps : ℚ) :
    (find_neighbors dist point points eps).length ≤ points.length := by
  simp only [find_neighbors, List.length_map]
  exact List.length_filter_le _ _

theorem mem_foldl_cons (l st : List Nat) (x : Nat) :
    x ∈ List.foldl (fun s a => a :: s) st l ↔ x ∈ l ∨ x ∈ st := by
  induction l generalizing st with
  | nil => simp
  | cons a t ih =>
    simp only [List.foldl_cons, ih, List.mem_cons]
    tauto

theorem length_foldl_cons (l st : List Nat) :
    (List.foldl (fun s a => a :: s) st l).length = st.length + l.length := by
  induction l generalizing st with
  | nil => simp
  | cons a t ih => simp [List.foldl_cons, ih]; omega

/-- The seed stack after processing an unvisited dense seed in the
expansion loop: if the current point `p` has at least `minPts` neighbors,
its neighbors not in the (already updated) visited set are pushed onto
the remaining stack `rest`; otherwise the stack is unchanged. -/
def nextSeeds (points : List GeoPoint) (dist : GeoPoint → GeoPoint → ℚ)
    (eps : ℚ) (minPts : Nat) (q : Nat) (visited : Finset Nat) (p : GeoPoint)
    (rest : List Nat) : List Nat :=
  if minPts ≤ (find_neighbors dist p points eps).length then
    ((find_neighbors dist p points eps).filter
      (fun x => x ∉ insert q visited)).foldl (fun st x => x :: st) rest
  else rest

theorem mem_nextSeeds (points : List GeoPoint) (dist : GeoPoint → GeoPoint → ℚ)
    (eps : ℚ) (minPts : Nat) (q : Nat) (visited : Finset Nat) (p : GeoPoint)
    (rest : List Nat) (x : Nat)
    (hx : x ∈ nextSeeds points dist eps minPts q visited p rest) :
    x ∈ find_neighbors dist p points eps ∨ x ∈ rest := by
  simp only [nextSeeds] at hx
  by_cases hc : minPts ≤ (find_neighbors dist p points eps).length
  · simp only [if_pos hc, mem_foldl_cons, List.mem_filter] at hx
    rcases hx with ⟨hn, _⟩ | hr
    · exact Or.inl hn
    · exact Or.inr hr
  · simp only [if_neg hc] at hx
    exact Or.inr hx

theorem nextSeeds_length_le (points : List GeoPoint)
    (dist : GeoPoint → GeoPoint → ℚ) (eps : ℚ) (minPts : Nat) (q : Nat)
    (visited : Finset Nat) (p : GeoPoint) (rest : List Nat) :
    (nextSeeds points dist eps minPts q visited p rest).length ≤
      rest.length + points.length := by
  simp only [nextSeeds]
  by_cases hc : minPts ≤ (find_neighbors dist p points eps).length
  · simp only [if_pos hc, length_foldl_cons]
    have h1 : ((find_neighbors dist p points eps).filter
        (fun x => x ∉ insert q visited)).length ≤
        (find_neighbors dist p points eps).length := List.length_filter_le _ _
    have h2 := find_neighbors_length_le dist p points eps
    omega
  · simp only [if_neg hc]
    omega

/-- The while-loop of `clustering::dbscan` expanding one cluster.  A seed
`q` that is not yet visited is marked visited and then looked up by
**indexing the input slice with the id** (`&points[current_point_id]`);
`none` models the panic when `q` is not a valid index.  If `q` has enough
neighbors its unvisited neighbors are pushed onto the seed stack
(`nextSeeds`), and `q` is appended to the cluster. -/
def expand (points : List GeoPoint) (dist : GeoPoint → GeoPoint → ℚ)
    (eps : ℚ) (minPts : Nat) :
    List Nat → Finset Nat → List Nat → Option (Finset Nat × List Nat)
  | [], visited, cluster => some (visited, cluster)
  | q :: rest, visited, cluster =>
    if q ∈ visited then
      expand points dist eps minPts rest visited cluster
    else
      match points.get? q with
      | none => none
      | some p =>
        expand points dist eps minPts
          (nextSeeds points dist eps minPts q visited p rest)
          (insert q visited) (cluster ++ [q])
termination_by seeds visited _ =>
  ((idSet points ∪ seeds.toFinset) \ visited).card * (points.length + 1) +
    seeds.length
decreasing_by
  · have hsub : (idSet points ∪ rest.toFinset) \ visited ⊆
        (idSet points ∪ (q :: rest).toFinset) \ visited := by
      apply Finset.sdiff_subset_sdiff _ le_rfl
      apply Finset.union_subset_union le_rfl
      intro x hx
      simp only [List.toFinset_cons, Finset.mem_insert]
      exact Or.inr hx
    have hcard := Finset.card_le_card hsub
    have := Nat.mul_le_mul_right (points.length + 1) hcard
    simp only [List.length_cons]
    omega
  · rename_i hq
    have hqB : q ∈ (idSet points ∪ (q :: rest).toFinset) \ visited := by
      simp only [Finset.mem_sdiff, Finset.mem_union, List.toFinset_cons,
        Finset.mem_insert]
      exact ⟨Or.inr (Or.inl trivial), hq⟩
    have hsub : (idSet points ∪
        (nextSeeds points dist eps minPts q visited p rest).toFinset) \
          insert q visited ⊆
        ((idSet points ∪ (q :: rest).toFinset) \ visited).erase q := by
      intro x hx
      simp only [Finset.mem_sdiff, Finset.mem_union, List.mem_toFinset,
        Finset.mem_insert, not_or] at hx
      obtain ⟨hx1, hx2, hx3⟩ := hx
      simp only [Finset.mem_erase, Finset.mem_sdiff, Finset.mem_union,
        List.toFinset_cons, Finset.mem_insert, List.mem_toFinset]
      refine ⟨hx2, ?_, hx3⟩
      rcases hx1 with h | h
      · exact Or.inl h
      · rcases mem_nextSeeds points dist eps minPts q visited p rest x h with
          hn | hr
        · exact Or.inl (find_neighbors_mem_idSet dist p points eps x hn)
        · exact Or.inr (Or.inr hr)
    have hcard : ((idSet points ∪
        (nextSeeds points dist eps minPts q visited p rest).toFinset) \
          insert q visited).card + 1 ≤
        ((idSet points ∪ (q :: rest).toFinset) \ visited).card := by
      have h1 := Finset.card_le_card hsub
      have h2 := Finset.card_erase_add_one hqB
      omega
    have hlen := nextSeeds_length_le points dist eps minPts q visited p rest
    have hmul := Nat.mul_le_mul_right (points.length + 1) hcard
    have hexp : (((idSet points ∪
        (nextSeeds points dist eps minPts q visited p rest).toFinset) \
          insert q visited).card + 1) * (points.length + 1) =
        ((idSet points ∪
          (nextSeeds points dist eps minPts q visited p rest).toFinset) \
            insert q visited).card * (points.length + 1) +
          (points.length + 1) := by ring
    simp only [List.length_cons]
    omega

/-- The outer loop of `clustering::dbscan` over the input order: skip
visited points, mark sparse points as noise, otherwise expand a cluster
from the point and emit it under the next dense cluster id. -/
def dbscanLoop (points : List GeoPoint) (dist : GeoPoint → GeoPoint → ℚ)
    (eps : ℚ) (minPts : Nat) :
    List GeoPoint → Finset Nat → List (Nat × List Nat) → Nat →
      Option (List (Nat × List Nat))
  | [], _, clusters, _ => some clusters
  | p :: rest, visited, clusters, cid =>
    if p.id ∈ visited then
      dbscanLoop points dist eps minPts rest visited clusters cid
    else
      let nbrs := find_neighbors dist p points eps
      if nbrs.length < minPts then
        dbscanLoop points dist eps minPts rest (insert p.id visited) clusters cid
      else
        match expand points dist eps minPts nbrs.reverse
            (insert p.id visited) [p.id] with
        | none => none
        | some (visited', cluster) =>
          if cluster.isEmpty then
            dbscanLoop points dist eps minPts rest visited' clusters cid
          else
            dbscanLoop points dist eps minPts rest visited'
              (clusters ++ [(cid, cluster)]) (cid + 1)

/-- `clustering::dbscan`.  The result `HashMap<usize, Vec<usize>>`, whose
keys are allocated densely from 0, is represented as the association list
of `(cluster_id, member ids)` pairs in allocation order; `none` models a
panic during expansion. -/
def dbscan (points : List GeoPoint) (dist : GeoPoint → GeoPoint → ℚ)
    (eps : ℚ) (minPts : Nat) : Option (List (Nat × List Nat)) :=
  dbscanLoop points dist eps minPts points ∅ [] 0

/-- A distance function every pair is close under; used to drive concrete
executions of the clusterer. -/
def distZero : GeoPoint → GeoPoint → ℚ := fun _ _ => 0


/-! ### Shared lemmas about the embedded operations -/

theorem expand_spec (points : List GeoPoint) (dist : GeoPoint → GeoPoint → ℚ)
    (eps : ℚ) (minPts : Nat) (P : Nat → Prop)
    (hPnb : ∀ p ∈ points, ∀ x ∈ find_neighbors dist p points eps, P x) :
    ∀ seeds visited cluster,
      (∀ x ∈ cluster, x ∈ visited) → cluster.Nodup → (∀ x ∈ seeds, P x) →
      ∀ v' c', expand points dist eps minPts seeds visited cluster = some (v', c') →
        visited ⊆ v' ∧ c'.Nodup ∧ (∀ x ∈ c', x ∈ v') ∧
        ∃ extra, c' = cluster ++ extra ∧ ∀ x ∈ extra, x ∉ visited ∧ P x := by
  intro seeds visited cluster
  induction seeds, visited, cluster using expand.induct points dist eps minPts with
  | case1 visited cluster =>
    intro h1 h2 _ v' c' heq
    simp only [expand, Option.some.injEq, Prod.mk.injEq] at heq
    obtain ⟨rfl, rfl⟩ := heq
    exact ⟨le_refl _, h2, h1, [], by simp, by simp⟩
  | case2 q rest visited cluster hqv ih =>
    intro h1 h2 h3 v' c' heq
    rw [expand.eq_def] at heq
    simp only [if_pos hqv] at heq
    exact ih h1 h2 (fun x hx => h3 x (List.mem_cons_of_mem q hx)) v' c' heq
  | case3 q rest visited cluster hqv hnone =>
    intro h1 h2 h3 v' c' heq
    rw [expand.eq_def] at heq
    simp only [if_neg hqv, hnone] at heq
    exact Option.noConfusion heq
  | case4 q rest visited cluster hqv p hp ih =>
    intro h1 h2 h3 v' c' heq
    rw [expand.eq_def] at heq
    simp only [if_neg hqv, hp] at heq
    have hpmem : p ∈ points := List.get?_mem hp
    have h1' : ∀ x ∈ cluster ++ [q], x ∈ insert q visited := by
      intro x hx
      rcases List.mem_append.mp hx with hx | hx
      · exact Finset.mem_insert_of_mem (h1 x hx)
      · simp only [List.mem_singleton] at hx
        subst hx
        exact Finset.mem_insert_self _ _
    have h2' : (cluster ++ [q]).Nodup := by
      rw [List.nodup_append]
      refine ⟨h2, List.nodup_singleton q, ?_⟩
      intro x hx hq
      simp only [List.mem_singleton] at hq
      subst hq
      exact hqv (h1 x hx)
    have h3' : ∀ x ∈ nextSeeds points dist eps minPts q visited p rest, P x := by
      intro x hx
      rcases mem_nextSeeds points dist eps minPts q visited p rest x hx with hn | hr
      · exact hPnb p hpmem x hn
      · exact h3 x (List.mem_cons_of_mem q hr)
    obtain ⟨hv, hnd, hmem, extra', hc, hextra⟩ := ih h1' h2' h3' v' c' heq
    refine ⟨le_trans (Finset.subset_insert q visited) hv, hnd, hmem,
      q :: extra', ?_, ?_⟩
    · simp only [hc, List.append_assoc, List.singleton_append]
    · intro x hx
      rcases List.mem_cons.mp hx with rfl | hx
      · exact ⟨hqv, h3 x (List.mem_cons_self x rest)⟩
      · obtain ⟨hnv, hP⟩ := hextra x hx
        exact ⟨fun hxv => hnv (Finset.mem_insert_of_mem hxv), hP⟩

theorem expand_total (points : List GeoPoint) (dist : GeoPoint → GeoPoint → ℚ)
    (eps : ℚ) (minPts : Nat)
    (hbound : ∀ q ∈ idSet points, q < points.length) :
    ∀ seeds visited cluster, (∀ x ∈ seeds, x ∈ idSet points) →
      ∃ out, expand points dist eps minPts seeds visited cluster = some out := by
  intro seeds visited cluster
  induction seeds, visited, cluster using expand.induct points dist eps minPts with
  | case1 visited cluster =>
    intro _
    exact ⟨(visited, cluster), by simp [expand]⟩
  | case2 q rest visited cluster hqv ih =>
    intro hs
    obtain ⟨out, hout⟩ := ih (fun x hx => hs x (List.mem_cons_of_mem q hx))
    refine ⟨out, ?_⟩
    rw [expand.eq_def]
    simp only [if_pos hqv]
    exact hout
  | case3 q rest visited cluster hqv hnone =>
    intro hs
    exfalso
    have hq := hs q (List.mem_cons_self q rest)
    have h1 := hbound q hq
    have h2 := List.get?_eq_none.mp hnone
    omega
  | case4 q rest visited cluster hqv p hp ih =>
    intro hs
    have hsub : ∀ x ∈ nextSeeds points dist eps minPts q visited p rest,
        x ∈ idSet points := by
      intro x hx
      rcases mem_nextSeeds points dist eps minPts q visited p rest x hx with hn | hr
      · exact find_neighbors_mem_idSet dist p points eps x hn
      · exact hs x (List.mem_cons_of_mem q hr)
    obtain ⟨out, hout⟩ := ih hsub
    refine ⟨out, ?_⟩
    rw [expand.eq_def]
    simp only [if_neg hqv, hp]
    exact hout


/-- The predicate used to track where cluster members come from: every
member is either its cluster's starter or lies in the neighbor list of
some input point. -/
def FromNeighbors (points : List GeoPoint) (dist : GeoPoint → GeoPoint → ℚ)
    (eps : ℚ) (x : Nat) : Prop :=
  ∃ q, q ∈ points ∧ x ∈ find_neighbors dist q points eps

theorem dbscanLoop_spec (points : List GeoPoint) (dist : GeoPoint → GeoPoint → ℚ)
    (eps : ℚ) (minPts : Nat) :
    ∀ rest visited clusters cid r,
      (∀ p ∈ rest, p ∈ points) →
      clusters.map Prod.fst = List.range cid →
      (clusters.map Prod.snd).flatten.Nodup →
      (∀ x ∈ (clusters.map Prod.snd).flatten, x ∈ visited) →
      (∀ c ∈ clusters, c.2 ≠ []) →
      (∀ c ∈ clusters, ∃ p, p ∈ points ∧ c.2.head? = some p.id ∧
        minPts ≤ (find_neighbors dist p points eps).length ∧
        ∀ x ∈ c.2, x = p.id ∨ FromNeighbors points dist eps x) →
      dbscanLoop points dist eps minPts rest visited clusters cid = some r →
      r.map Prod.fst = List.range r.length ∧
      (r.map Prod.snd).flatten.Nodup ∧
      (∀ c ∈ r, c.2 ≠ []) ∧
      (∀ c ∈ r, ∃ p, p ∈ points ∧ c.2.head? = some p.id ∧
        minPts ≤ (find_neighbors dist p points eps).length ∧
        ∀ x ∈ c.2, x = p.id ∨ FromNeighbors points dist eps x) := by
  intro rest
  induction rest with
  | nil =>
    intro visited clusters cid r _ hkeys hnd hmem hne hstart heq
    simp only [dbscanLoop, Option.some.injEq] at heq
    obtain rfl := heq
    have hlen : clusters.length = cid := by
      have := congrArg List.length hkeys
      simpa using this
    exact ⟨by rw [hlen]; exact hkeys, hnd, hne, hstart⟩
  | cons p rest ih =>
    intro visited clusters cid r hrest hkeys hnd hmem hne hstart heq
    have hpmem : p ∈ points := hrest p (List.mem_cons_self p rest)
    have hrest' : ∀ x ∈ rest, x ∈ points :=
      fun x hx => hrest x (List.mem_cons_of_mem p hx)
    simp only [dbscanLoop] at heq
    by_cases hvis : p.id ∈ visited
    · rw [if_pos hvis] at heq
      exact ih visited clusters cid r hrest' hkeys hnd hmem hne hstart heq
    · rw [if_neg hvis] at heq
      by_cases hsparse : (find_neighbors dist p points eps).length < minPts
      · rw [if_pos hsparse] at heq
        refine ih _ clusters cid r hrest' hkeys hnd ?_ hne hstart heq
        exact fun x hx => Finset.mem_insert_of_mem (hmem x hx)
      · rw [if_neg hsparse] at heq
        rcases hexp : expand points dist eps minPts
            (find_neighbors dist p points eps).reverse
            (insert p.id visited) [p.id] with _ | ⟨v', cluster⟩
        · simp only [hexp] at heq
          exact Option.noConfusion heq
        · simp only [hexp] at heq
          have hspec := expand_spec points dist eps minPts
            (FromNeighbors points dist eps)
            (fun q hq x hx => ⟨q, hq, hx⟩)
            (find_neighbors dist p points eps).reverse
            (insert p.id visited) [p.id]
            (by
              intro x hx
              simp only [List.mem_singleton] at hx
              subst hx
              exact Finset.mem_insert_self _ _)
            (List.nodup_singleton _)
            (by
              intro x hx
              rw [List.mem_reverse] at hx
              exact ⟨p, hpmem, hx⟩)
            v' cluster hexp
          obtain ⟨hvsub, hcnd, hcmem, extra, hcl, hextra⟩ := hspec
          have hvv : visited ⊆ v' :=
            le_trans (Finset.subset_insert p.id visited) hvsub
          have hclcons : cluster = p.id :: extra := by
            simpa using hcl
          by_cases hemp : cluster.isEmpty
          · rw [if_pos hemp] at heq
            refine ih v' clusters cid r hrest' hkeys hnd ?_ hne hstart heq
            exact fun x hx => hvv (hmem x hx)
          · rw [if_neg hemp] at heq
            refine ih v' (clusters ++ [(cid, cluster)]) (cid + 1) r hrest' ?_ ?_ ?_ ?_ ?_ heq
            · simp only [List.map_append, List.map_cons, List.map_nil, hkeys]
              rw [List.range_succ]
            · simp only [List.map_append, List.map_cons, List.map_nil,
                List.flatten_append, List.flatten, List.append_nil]
              rw [List.nodup_append]
              refine ⟨hnd, hcnd, ?_⟩
              intro x hx hxc
              have hxv : x ∈ visited := hmem x hx
              rw [hclcons] at hxc
              rcases List.mem_cons.mp hxc with rfl | hxe
              · exact hvis hxv
              · exact (hextra x hxe).1 (Finset.mem_insert_of_mem hxv)
            · intro x hx
              simp only [List.map_append, List.map_cons, List.map_nil,
                List.flatten_append, List.flatten, List.append_nil,
                List.mem_append] at hx
              rcases hx with hx | hx
              · exact hvv (hmem x hx)
              · exact hcmem x hx
            · intro c hc
              rcases List.mem_append.mp hc with hc | hc
              · exact hne c hc
              · simp only [List.mem_singleton] at hc
                subst hc
                simp only [hclcons]
                exact List.cons_ne_nil _ _
            · intro c hc
              rcases List.mem_append.mp hc with hc | hc
              · exact hstart c hc
              · simp only [List.mem_singleton] at hc
                subst hc
                refine ⟨p, hpmem, ?_, le_of_not_lt hsparse, ?_⟩
                · simp [hclcons]
                · intro x hx
                  simp only [hclcons, List.mem_cons] at hx
                  rcases hx with rfl | hx
                  · exact Or.inl rfl
                  · exact Or.inr (hextra x hx).2

theorem dbscanLoop_total (points : List GeoPoint) (dist : GeoPoint → GeoPoint → ℚ)
    (eps : ℚ) (minPts : Nat)
    (hbound : ∀ q ∈ idSet points, q < points.length) :
    ∀ rest visited clusters cid,
      ∃ r, dbscanLoop points dist eps minPts rest visited clusters cid = some r := by
  intro rest
  induction rest with
  | nil =>
    intro visited clusters cid
    exact ⟨clusters, by simp [dbscanLoop]⟩
  | cons p rest ih =>
    intro visited clusters cid
    simp only [dbscanLoop]
    by_cases hvis : p.id ∈ visited
    · rw [if_pos hvis]
      exact ih visited clusters cid
    · rw [if_neg hvis]
      by_cases hsparse : (find_neighbors dist p points eps).length < minPts
      · rw [if_pos hsparse]
        exact ih _ clusters cid
      · rw [if_neg hsparse]
        obtain ⟨⟨v', cluster⟩, hout⟩ := expand_total points dist eps minPts hbound
          (find_neighbors dist p points eps).reverse (insert p.id visited) [p.id]
          (by
            intro x hx
            rw [List.mem_reverse] at hx
            exact find_neighbors_mem_idSet dist p points eps x hx)
        simp only [hout]
        by_cases hemp : cluster.isEmpty
        · rw [if_pos hemp]
          exact ih v' clusters cid
        · rw [if_neg hemp]
          exact ih v' (clusters ++ [(cid, cluster)]) (cid + 1)


theorem id_injective (points : List GeoPoint)
    (hid : points.map (fun p => p.id) = List.range points.length) :
    ∀ a ∈ points, ∀ b ∈ points, a.id = b.id → a = b := by
  have hq : ∀ i : Nat, i < points.length →
      (points.get? i).map (fun p => p.id) = some i := by
    intro i hi
    rw [← List.get?_map, hid, List.get?_range hi]
  intro a ha b hb hab
  obtain ⟨i, hia⟩ := List.get?_of_mem ha
  obtain ⟨j, hjb⟩ := List.get?_of_mem hb
  have hi : i < points.length := by
    by_contra h
    rw [List.get?_eq_none.mpr (le_of_not_lt h)] at hia
    exact Option.noConfusion hia
  have hj : j < points.length := by
    by_contra h
    rw [List.get?_eq_none.mpr (le_of_not_lt h)] at hjb
    exact Option.noConfusion hjb
  have ha' := hq i hi
  have hb' := hq j hj
  rw [hia] at ha'
  rw [hjb] at hb'
  simp only [Option.map_some', Option.some.injEq] at ha' hb'
  have hij : i = j := by rw [← ha', ← hb', hab]
  rw [hij] at hia
  rw [hia] at hjb
  exact Option.some.injEq _ _ ▸ hjb

theorem idSet_bound (points : List GeoPoint)
    (hbound : ∀ p ∈ points, p.id < points.length) :
    ∀ q ∈ idSet points, q < points.length := by
  intro q hq
  simp only [idSet, List.mem_toFinset, List.mem_map] at hq
  obtain ⟨p, hp, rfl⟩ := hq
  exact hbound p hp

theorem containsHash_addEntry (idx : IndexM) (h p x : String) :
    containsHash (addEntry idx h p) x = (h == x || containsHash idx x) := by
  simp [containsHash, addEntry]

theorem placeLoop_contains_mono (destRoot : String) :
    ∀ (rs : List FileRecord) (idx : IndexM) (dest : FS) (o f : Nat) (x : String),
      containsHash idx x = true →
      containsHash (placeLoop destRoot rs idx dest o f).1 x = true := by
  intro rs
  induction rs with
  | nil =>
    intro idx dest o f x hx
    simpa [placeLoop] using hx
  | cons r rs ih =>
    intro idx dest o f x hx
    simp only [placeLoop]
    rcases horg : organize_file dest destRoot r with _ | ⟨dest', d⟩
    · exact ih idx dest o (f + 1) x hx
    · refine ih (addEntry idx r.hash r.path) dest' (o + 1) f x ?_
      rw [containsHash_addEntry, hx, Bool.or_true]

theorem organize_file_ok_of_date (dest : FS) (destRoot : String)
    (r : FileRecord) (hd : r.date.isSome) :
    organize_file dest destRoot r =
      .ok (fsInsert dest
        (destRoot ++ "/" ++ chronoPath (r.date.get hd) ++ "/" ++ r.basename)
          r.content,
        destRoot ++ "/" ++ chronoPath (r.date.get hd) ++ "/" ++ r.basename) := by
  obtain ⟨d, hdq⟩ := Option.isSome_iff_exists.mp hd
  simp only [organize_file, hdq, Option.get_some]

theorem placeLoop_commits (destRoot : String) :
    ∀ (rs : List FileRecord) (idx : IndexM) (dest : FS) (o f : Nat)
      (r : FileRecord), r ∈ rs → r.date.isSome →
      containsHash (placeLoop destRoot rs idx dest o f).1 r.hash = true := by
  intro rs
  induction rs with
  | nil =>
    intro idx dest o f r hr
    exact absurd hr (List.not_mem_nil r)
  | cons r' rs ih =>
    intro idx dest o f r hr hd
    rcases List.mem_cons.mp hr with rfl | hr
    · rw [placeLoop, organize_file_ok_of_date dest destRoot r hd]
      apply placeLoop_contains_mono
      rw [containsHash_addEntry]
      simp
    · simp only [placeLoop]
      rcases horg : organize_file dest destRoot r' with _ | ⟨dest', d⟩
      · exact ih idx dest o (f + 1) r hr hd
      · exact ih (addEntry idx r'.hash r'.path) dest' (o + 1) f r hr hd

theorem scan_source_subset (src : List SourceFile) :
    ∀ f ∈ scan_source src, f ∈ src := by
  intro f hf
  exact List.mem_of_mem_filter hf

theorem analyze_date_isSome (hashFn : List Nat → String) (src : List SourceFile)
    (hm : ∀ f ∈ src, f.mtimeDate.isSome) :
    ∀ rcd ∈ analyze_files hashFn (scan_source src), rcd.date.isSome := by
  intro rcd hrcd
  simp only [analyze_files, List.mem_map] at hrcd
  obtain ⟨f, hf, rfl⟩ := hrcd
  exact hm f (scan_source_subset src f hf)

theorem run_contains (hashFn : List Nat → String) (src : List SourceFile)
    (destRoot : String) (st0 : PipeState)
    (hm : ∀ f ∈ src, f.mtimeDate.isSome) :
    ∀ rcd ∈ analyze_files hashFn (scan_source src),
      containsHash (run hashFn src destRoot st0).1.index rcd.hash = true := by
  intro rcd hrcd
  by_cases hemp : (scan_source src).isEmpty
  · rw [List.isEmpty_iff] at hemp
    rw [hemp] at hrcd
    simp [analyze_files] at hrcd
  · simp only [run, if_neg hemp]
    by_cases hc : containsHash st0.index rcd.hash
    · exact placeLoop_contains_mono destRoot _ st0.index st0.dest 0 0 rcd.hash hc
    · apply placeLoop_commits
      · rw [List.mem_filter]
        refine ⟨hrcd, ?_⟩
        simp [hc]
      · exact analyze_date_isSome hashFn src hm rcd hrcd

theorem ascii_isCharBoundary (s : List Nat) (hascii : ∀ b ∈ s, b < 128)
    (i : Nat) (hi : i ≤ s.length) : isCharBoundary s i = true := by
  rcases lt_or_eq_of_le hi with hlt | rfl
  · have hb := hascii _ (List.get_mem s i hlt)
    have hc : (!isContinuationByte (s.get ⟨i, hlt⟩)) = true := by
      simp only [isContinuationByte, Bool.not_eq_true']
      simp only [Bool.and_eq_false_iff, decide_eq_false_iff_not, not_le, not_lt]
      omega
    unfold isCharBoundary
    rw [List.get?_eq_get hlt]
    simp only [Bool.or_eq_true, beq_iff_eq]
    right
    exact hc
  · simp [isCharBoundary]

theorem extractFilenameLoop_ascii (s : List Nat) (hascii : ∀ b ∈ s, b < 128) :
    ∀ idxs, (∀ i ∈ idxs, i + 8 ≤ s.length) →
      extractFilenameLoop s idxs =
        .ok (match firstRangeRun s idxs with
          | some (y, m, d) => fromYmdOpt y m d
          | none => none) := by
  intro idxs
  induction idxs with
  | nil =>
    intro _
    simp [extractFilenameLoop, firstRangeRun]
  | cons i rest ih =>
    intro hix
    have hi8 : i + 8 ≤ s.length := hix i (List.mem_cons_self i rest)
    have hb1 : isCharBoundary s i = true :=
      ascii_isCharBoundary s hascii i (by omega)
    have hb2 : isCharBoundary s (i + 8) = true :=
      ascii_isCharBoundary s hascii (i + 8) hi8
    simp only [extractFilenameLoop, firstRangeRun, hb1, hb2, Bool.and_self,
      if_true]
    rcases hw : windowStep ((s.drop i).take 8) with _ | ⟨y, m, d⟩
    · exact ih (fun j hj => hix j (List.mem_cons_of_mem i hj))
    · rfl


/-! ### Concrete instances used by counterexamples and witnesses -/

/-- A source file whose basename carries the date 2020-01-01 while its
mtime date is 2024-03-15 and it has no EXIF date
(`"IMG_20200101.jpg"`). -/
def fileC4 : SourceFile :=
  { path := "src/IMG_20200101.jpg", basename := "IMG_20200101.jpg",
    basenameBytes := [73, 77, 71, 95, 50, 48, 50, 48, 48, 49, 48, 49,
      46, 106, 112, 103],
    content := [1], exifDate := none, mtimeDate := some ⟨2024, 3, 15⟩ }

/-- A photo file with a modification date and no date in its name
(`"p.jpg"`). -/
def fileJpg : SourceFile where
  path := "s/p.jpg"
  basename := "p.jpg"
  basenameBytes := [112, 46, 106, 112, 103]
  content := [7]
  exifDate := none
  mtimeDate := some ⟨2024, 1, 5⟩

/-- A drive item whose photo facet has a camera model but no camera make. -/
def itemModelOnly : DriveItem where
  id := "item1"
  name := "p.jpg"
  photo := some
    { taken_date_time := none
      camera_make := none
      camera_model := some "iPhone 15 Pro" }
  location := none
  file := none
  deleted := none
  parent_reference := none

/-- A drive item whose photo facet has both camera make and model. -/
def itemBothCams : DriveItem where
  id := "item2"
  name := "q.jpg"
  photo := some
    { taken_date_time := none
      camera_make := some "Apple"
      camera_model := some "iPhone 15 Pro" }
  location := none
  file := none
  deleted := none
  parent_reference := none

/-- A two-byte encoder standing in for bincode in concrete save traces. -/
def encodeTwo : IndexM → List Nat := fun _ => [1, 2]

/-- A filesystem holding a source file and a colliding destination file
with different content. -/
def fsC3 : FS := [("src/a.jpg", [1]), ("dest/2024/01/05/a.jpg", [2])]

/-- UTF-8 bytes of `"IMG_20240211_001.jpg"`. -/
def bytesValidName : List Nat :=
  [73, 77, 71, 95, 50, 48, 50, 52, 48, 50, 49, 49, 95,
   48, 48, 49, 46, 106, 112, 103]

/-- The single-point input: one isolated point with id 0. -/
def ptSolo : List GeoPoint := [⟨0, 0, 0⟩]

/-- Two points with ids equal to their positions. -/
def ptsPair : List GeoPoint := [⟨0, 0, 0⟩, ⟨1, 0, 0⟩]

/-! ### The claims -/

/-- C1: on an unchanged source, the second of two consecutive completed
runs of the local orchestrator reports `files_organized = 0` and
`files_skipped_duplicates` equal to the number of files analyzed, and
leaves the destination tree (and the saved index) exactly as the first
run left them.  `hm` states that every source file's mtime is readable,
which is what lets both runs complete. -/
theorem c1_second_run_all_duplicates (hashFn : List Nat → String) (src : List SourceFile)
    (destRoot : String) (st0 : PipeState)
    (hm : ∀ f ∈ src, f.mtimeDate.isSome) :
    (run hashFn src destRoot (run hashFn src destRoot st0).1).2.files_organized = 0 ∧
    (run hashFn src destRoot (run hashFn src destRoot st0).1).2.files_skipped_duplicates =
      (run hashFn src destRoot (run hashFn src destRoot st0).1).2.files_analyzed ∧
    (run hashFn src destRoot (run hashFn src destRoot st0).1).1.dest =
      (run hashFn src destRoot st0).1.dest ∧
    (run hashFn src destRoot (run hashFn src destRoot st0).1).1.index =
      (run hashFn src destRoot st0).1.index := by
  by_cases hemp : (scan_source src).isEmpty
  · simp [run, hemp]
  · have hall := run_contains hashFn src destRoot st0 hm
    set st1 := (run hashFn src destRoot st0).1 with hst1
    have huniq : (analyze_files hashFn (scan_source src)).filter
        (fun r => ¬ containsHash (run hashFn src destRoot st0).1.index r.hash) = [] := by
      rw [List.filter_eq_nil_iff]
      intro r hr
      simp only [decide_not, Bool.not_eq_true', decide_eq_false_iff_not,
        Decidable.not_not]
      exact hall r hr
    have hcount : (analyze_files hashFn (scan_source src)).countP
        (fun r => containsHash (run hashFn src destRoot st0).1.index r.hash) =
        (analyze_files hashFn (scan_source src)).length := by
      rw [List.countP_eq_length]
      intro r hr
      exact hall r hr
    simp only [run, if_neg hemp, huniq, hcount, placeLoop]
    exact ⟨trivial, trivial, trivial, trivial⟩

/-- Witness for C1: a one-file source organized twice from an empty
initial state. -/
theorem c1_second_run_all_duplicates_witness :
    (∀ f ∈ [fileJpg], f.mtimeDate.isSome) ∧
    ((run (fun _ => "h") [fileJpg] "d" (run (fun _ => "h") [fileJpg] "d" ⟨[], []⟩).1).2.files_organized = 0 ∧
     (run (fun _ => "h") [fileJpg] "d" (run (fun _ => "h") [fileJpg] "d" ⟨[], []⟩).1).2.files_skipped_duplicates =
       (run (fun _ => "h") [fileJpg] "d" (run (fun _ => "h") [fileJpg] "d" ⟨[], []⟩).1).2.files_analyzed ∧
     (run (fun _ => "h") [fileJpg] "d" (run (fun _ => "h") [fileJpg] "d" ⟨[], []⟩).1).1.dest =
       (run (fun _ => "h") [fileJpg] "d" ⟨[], []⟩).1.dest ∧
     (run (fun _ => "h") [fileJpg] "d" (run (fun _ => "h") [fileJpg] "d" ⟨[], []⟩).1).1.index =
       (run (fun _ => "h") [fileJpg] "d" ⟨[], []⟩).1.index) :=
  ⟨by decide, c1_second_run_all_duplicates (fun _ => "h") [fileJpg] "d" ⟨[], []⟩ (by decide)⟩

/-- C2 counterexample: `Index::save_to_file` performs one direct
`fs::write` to the target — it is not a write-to-temporary followed by a
rename, and a crash mid-write leaves a state where the target holds
neither the old nor the new bytes. -/
theorem c2_save_not_atomic_counterexample :
    ¬ IsAtomicReplace (save_to_file_ops encodeTwo [] "index.bin") "index.bin" ∧
    (("index.bin", [1]) :: [("index.bin", [9])]) ∈
      crashStates [("index.bin", [9])]
        (save_to_file_ops encodeTwo [] "index.bin") ∧
    fsLookup (("index.bin", [1]) :: [("index.bin", [9])]) "index.bin" ≠
      some [9] ∧
    fsLookup (("index.bin", [1]) :: [("index.bin", [9])]) "index.bin" ≠
      some [1, 2] := by
  refine ⟨?_, ?_, ?_, ?_⟩
  · rintro ⟨tmp, data, hne, heq⟩
    simp [save_to_file_ops] at heq
  · decide
  · decide
  · decide

/-- C2 amended: saving writes the serialized bytes directly to the target
path in a single write (no temporary file, no rename), and every
truncation of the new bytes is a reachable crash state of the target. -/
theorem c2_save_single_direct_write (encode : IndexM → List Nat) (idx : IndexM)
    (path : String) (fs : FS) (k : Nat) (hk : k ≤ (encode idx).length) :
    save_to_file_ops encode idx path = [FsOp.write path (encode idx)] ∧
    fsInsert fs path ((encode idx).take k) ∈
      crashStates fs (save_to_file_ops encode idx path) := by
  refine ⟨rfl, ?_⟩
  simp only [save_to_file_ops, crashStates, midStates]
  apply List.mem_append_left
  rw [List.mem_map]
  exact ⟨k, List.mem_range.mpr (by omega), rfl⟩

/-- Witness for C2: the two-byte encode at a concrete target. -/
theorem c2_save_single_direct_write_witness :
    1 ≤ (encodeTwo []).length ∧
    (save_to_file_ops encodeTwo [] "i.bin" = [FsOp.write "i.bin" (encodeTwo [])] ∧
     fsInsert [] "i.bin" ((encodeTwo []).take 1) ∈
       crashStates [] (save_to_file_ops encodeTwo [] "i.bin")) :=
  ⟨by decide, c2_save_single_direct_write encodeTwo [] "i.bin" [] 1 (by decide)⟩

/-- C3 counterexample: `organize_by_date` copies over an existing
destination file with different content — the pre-existing bytes `[2]`
are replaced by the source bytes `[1]`. -/
theorem c3_copy_overwrites_counterexample :
    organize_by_date fsC3 "src/a.jpg" "dest" ⟨2024, 1, 5⟩ =
      .ok (("dest/2024/01/05/a.jpg", [1]) :: fsC3, "dest/2024/01/05/a.jpg") ∧
    fsLookup fsC3 "dest/2024/01/05/a.jpg" = some [2] ∧
    fsLookup (("dest/2024/01/05/a.jpg", [1]) :: fsC3)
      "dest/2024/01/05/a.jpg" = some [1] ∧
    (some [1] : Option (List Nat)) ≠ some [2] :=
  ⟨rfl, rfl, rfl, by decide⟩

/-- C3 amended: a successful `organize_by_date` always leaves the source
content at the destination path, replacing whatever was there. -/
theorem c3_copy_writes_source_content (fs : FS) (src root : String) (d : Date) (fs' : FS)
    (dest : String) (h : organize_by_date fs src root d = .ok (fs', dest)) :
    fsLookup fs' dest = fsLookup fs src := by
  unfold organize_by_date at h
  rcases hb : basenameOf src with _ | name
  · rw [hb] at h
    exact Except.noConfusion h
  · rw [hb] at h
    rcases hl : fsLookup fs src with _ | data
    · rw [hl] at h
      exact Except.noConfusion h
    · rw [hl] at h
      simp only [Except.ok.injEq, Prod.mk.injEq] at h
      obtain ⟨h1, h2⟩ := h
      subst h1
      subst h2
      simp [fsLookup, fsInsert]

/-- Witness for C3: the colliding-destination filesystem. -/
theorem c3_copy_writes_source_content_witness :
    organize_by_date fsC3 "src/a.jpg" "dest" ⟨2024, 1, 5⟩ =
      .ok (("dest/2024/01/05/a.jpg", [1]) :: fsC3, "dest/2024/01/05/a.jpg") ∧
    fsLookup (("dest/2024/01/05/a.jpg", [1]) :: fsC3) "dest/2024/01/05/a.jpg" =
      fsLookup fsC3 "src/a.jpg" :=
  ⟨rfl, c3_copy_writes_source_content fsC3 "src/a.jpg" "dest" ⟨2024, 1, 5⟩ _ _ rfl⟩

/-- C4 counterexample: the analyze stage records the mtime date
(2024-03-15) for `fileC4`, while the 4.B priority ladder
(`extract_date_with_fallback`) yields the filename date 2020-01-01. -/
theorem c4_analyze_ignores_ladder_counterexample :
    (analyze_files (fun _ => "h") [fileC4]).map (fun r => r.date) =
      [some ⟨2024, 3, 15⟩] ∧
    extract_date_with_fallback fileC4 = .ok (some ⟨2020, 1, 1⟩) ∧
    (some (⟨2024, 3, 15⟩ : Date)) ≠ some ⟨2020, 1, 1⟩ :=
  ⟨rfl, rfl, by decide⟩

/-- C4 amended: the capture date the analyze stage records is exactly the
mtime date (`extract_date_safe`); the EXIF/filename ladder is not
consulted by the pipeline. -/
theorem c4_analyze_records_mtime_date (hashFn : List Nat → String) (files : List SourceFile) :
    (analyze_files hashFn files).map (fun r => r.date) =
      files.map (fun f => f.mtimeDate) := by
  simp [analyze_files, extract_date_safe, List.map_map]

/-- C5 counterexample: on `"20240230_20240101.jpg"` the code returns
`None` — it stops at the first range-passing run `20240230` and returns
`from_ymd_opt`'s failure — while the claimed scanner skips the
calendar-invalid run and finds 2024-01-01. -/
theorem c5_scan_stops_counterexample :
    extract_date_from_filename bytesInvalidThenValid = .ok none ∧
    claim_extract_date_from_filename bytesInvalidThenValid =
      some ⟨2024, 1, 1⟩ ∧
    (Except.ok none : Except Unit (Option Date)) ≠
      .ok (some ⟨2024, 1, 1⟩) := by
  refine ⟨rfl, rfl, ?_⟩
  intro h
  simp at h

/-- C5 amended: on ASCII basenames the function returns the calendar
validation of the *leftmost run passing the numeric range checks*: its
date if calendar-valid, `None` otherwise (without scanning further), and
`None` when no range-passing run exists. -/
theorem c5_first_range_run_decides (s : List Nat) (hascii : ∀ b ∈ s, b < 128) :
    extract_date_from_filename s =
      .ok (match first_range_run s with
        | some (y, m, d) => fromYmdOpt y m d
        | none => none) := by
  unfold extract_date_from_filename first_range_run
  apply extractFilenameLoop_ascii s hascii
  intro i hi
  rw [List.mem_range] at hi
  omega

/-- Witness for C5: the bytes of `"IMG_20240211_001.jpg"`. -/
theorem c5_first_range_run_decides_witness :
    (∀ b ∈ bytesValidName, b < 128) ∧
    extract_date_from_filename bytesValidName =
      .ok (match first_range_run bytesValidName with
        | some (y, m, d) => fromYmdOpt y m d
        | none => none) :=
  ⟨by decide, c5_first_range_run_decides bytesValidName (by decide)⟩

/-- C6: with ids equal to positions, `eps_km > 0` and `min_points ≥ 1`,
dbscan returns a mapping whose cluster ids are the contiguous range from
0, whose member lists are globally duplicate-free (each id in at most one
cluster, at most once), which contains no empty cluster, and each of
whose clusters is started by a point with at least `min_points`
neighbors. -/
theorem c6_dbscan_invariants (points : List GeoPoint)
    (dist : GeoPoint → GeoPoint → ℚ) (eps : ℚ) (minPts : Nat)
    (hid : points.map (fun p => p.id) = List.range points.length)
    (_heps : 0 < eps) (_hmin : 1 ≤ minPts) :
    ∃ r, dbscan points dist eps minPts = some r ∧
      r.map Prod.fst = List.range r.length ∧
      (r.map Prod.snd).flatten.Nodup ∧
      (∀ c ∈ r, c.2 ≠ []) ∧
      (∀ c ∈ r, ∃ p, p ∈ points ∧ c.2.head? = some p.id ∧
        minPts ≤ (find_neighbors dist p points eps).length) := by
  have hbound : ∀ q ∈ idSet points, q < points.length := by
    apply idSet_bound
    intro p hp
    have : p.id ∈ points.map (fun p => p.id) := List.mem_map_of_mem _ hp
    rw [hid, List.mem_range] at this
    exact this
  obtain ⟨r, hr⟩ := dbscanLoop_total points dist eps minPts hbound points ∅ [] 0
  obtain ⟨hk, hn, he, hs⟩ := dbscanLoop_spec points dist eps minPts points ∅ [] 0 r
    (fun x hx => hx) (by simp) (by simp) (by simp) (by simp) (by simp) hr
  exact ⟨r, hr, hk, hn, he, fun c hc => by
    obtain ⟨p, hp, h1, h2, _⟩ := hs c hc
    exact ⟨p, hp, h1, h2⟩⟩

/-- Witness for C6: two coincident points under the all-close distance. -/
theorem c6_dbscan_invariants_witness :
    (ptsPair.map (fun p => p.id) = List.range ptsPair.length ∧
     (0 : ℚ) < 1 ∧ 1 ≤ 1) ∧
    (∃ r, dbscan ptsPair distZero 1 1 = some r ∧
      r.map Prod.fst = List.range r.length ∧
      (r.map Prod.snd).flatten.Nodup ∧
      (∀ c ∈ r, c.2 ≠ []) ∧
      (∀ c ∈ r, ∃ p, p ∈ ptsPair ∧ c.2.head? = some p.id ∧
        1 ≤ (find_neighbors distZero p ptsPair 1).length)) :=
  ⟨⟨by decide, by norm_num, le_refl 1⟩,
   c6_dbscan_invariants ptsPair distZero 1 1 (by decide) (by norm_num) (le_refl 1)⟩

/-- C7 counterexample: with `min_points = 1` an isolated point is *noise*:
its neighborhood (which excludes the point itself) is empty, `0 < 1`
marks it visited without a cluster, and the result is the empty mapping,
not a singleton cluster. -/
theorem c7_isolated_point_counterexample :
    dbscan ptSolo distZero 1 1 = some [] ∧
    (some ([] : List (Nat × List Nat))) ≠ some [(0, [0])] :=
  ⟨rfl, by decide⟩

/-- C7 amended: for `min_points = 1` (indeed any `min_points ≥ 1`), a
point with no other point within `eps_km` appears in **no** cluster of
the result — isolated points are noise, not singleton clusters. -/
theorem c7_isolated_points_are_noise (points : List GeoPoint)
    (dist : GeoPoint → GeoPoint → ℚ) (eps : ℚ) (minPts : Nat)
    (hid : points.map (fun p => p.id) = List.range points.length)
    (hsym : ∀ a b, dist a b = dist b a)
    (hmin : 1 ≤ minPts)
    (p : GeoPoint) (hp : p ∈ points)
    (hiso : find_neighbors dist p points eps = [])
    (r : List (Nat × List Nat)) (hr : dbscan points dist eps minPts = some r) :
    ∀ c ∈ r, p.id ∉ c.2 := by
  unfold dbscan at hr
  obtain ⟨_, _, _, hstart⟩ := dbscanLoop_spec points dist eps minPts points ∅ [] 0 r
    (fun x hx => hx) (by simp) (by simp) (by simp) (by simp) (by simp) hr
  intro c hc hpc
  obtain ⟨s, hs, hhead, hdense, hprov⟩ := hstart c hc
  rcases hprov p.id hpc with heq | ⟨q, hq, hmemq⟩
  · have hps : p = s := id_injective points hid p hp s hs heq
    rw [← hps] at hdense
    rw [hiso] at hdense
    simp only [List.length_nil] at hdense
    omega
  · simp only [find_neighbors, List.mem_map, List.mem_filter,
      decide_eq_true_eq] at hmemq
    obtain ⟨w, ⟨hwmem, hcond⟩, hwid⟩ := hmemq
    have hwp : w = p := id_injective points hid w hwmem p hp hwid
    rw [hwp] at hcond
    have hqmem : q.id ∈ find_neighbors dist p points eps := by
      simp only [find_neighbors, List.mem_map, List.mem_filter,
        decide_eq_true_eq]
      refine ⟨q, ⟨hq, ?_, ?_⟩, rfl⟩
      · exact fun h => hcond.1 (by rw [h])
      · rw [hsym]
        exact hcond.2
    rw [hiso] at hqmem
    exact List.not_mem_nil _ hqmem

/-- Witness for C7: the singleton input. -/
theorem c7_isolated_points_are_noise_witness :
    (ptSolo.map (fun p => p.id) = List.range ptSolo.length ∧
     (∀ a b, distZero a b = distZero b a) ∧ 1 ≤ 1 ∧
     (⟨0, 0, 0⟩ : GeoPoint) ∈ ptSolo ∧
     find_neighbors distZero ⟨0, 0, 0⟩ ptSolo 1 = [] ∧
     dbscan ptSolo distZero 1 1 = some []) ∧
    (∀ c ∈ ([] : List (Nat × List Nat)), (⟨0, 0, 0⟩ : GeoPoint).id ∉ c.2) :=
  ⟨⟨by decide, fun a b => rfl, le_refl 1, by decide, rfl, rfl⟩,
   c7_isolated_points_are_noise ptSolo distZero 1 1 (by decide) (fun a b => rfl)
     (le_refl 1) ⟨0, 0, 0⟩ (by decide) rfl [] rfl⟩

/-- C8 counterexample: a photo facet with a camera model but no make maps
to `camera = None`, where the claim (spec mapping rule, `claimCamera`)
keeps the present component. -/
theorem c8_camera_counterexample :
    (drive_item_to_record (fun _ => none) itemModelOnly).camera = none ∧
    claimCamera none (some "iPhone 15 Pro") = some "iPhone 15 Pro" ∧
    (none : Option String) ≠ some "iPhone 15 Pro" :=
  ⟨rfl, rfl, by decide⟩

/-- C8 amended: `camera` is `"{make} {model}"` when both are present, the
make alone when only the make is present, and absent whenever the make is
absent — even if the model is present (and absent when there is no photo
facet at all, since it is derived from it). -/
theorem c8_camera_requires_make (parse : String → Option Date) (item : DriveItem)
    (ph : PhotoFacet) (hph : item.photo = some ph) :
    (∀ mk md, ph.camera_make = some mk → ph.camera_model = some md →
      (drive_item_to_record parse item).camera = some (mk ++ " " ++ md)) ∧
    (∀ mk, ph.camera_make = some mk → ph.camera_model = none →
      (drive_item_to_record parse item).camera = some mk) ∧
    (ph.camera_make = none →
      (drive_item_to_record parse item).camera = none) := by
  refine ⟨?_, ?_, ?_⟩
  · intro mk md hmk hmd
    simp [drive_item_to_record, hph, hmk, hmd]
  · intro mk hmk hmd
    simp [drive_item_to_record, hph, hmk, hmd]
  · intro hmk
    rcases hmd : ph.camera_model with _ | md
    · simp [drive_item_to_record, hph, hmk, hmd]
    · simp [drive_item_to_record, hph, hmk, hmd]

/-- Witness for C8: the both-components item. -/
theorem c8_camera_requires_make_witness :
    itemBothCams.photo = some
      ⟨none, some "Apple", some "iPhone 15 Pro"⟩ ∧
    ((∀ mk md,
        (⟨none, some "Apple", some "iPhone 15 Pro"⟩ : PhotoFacet).camera_make = some mk →
        (⟨none, some "Apple", some "iPhone 15 Pro"⟩ : PhotoFacet).camera_model = some md →
        (drive_item_to_record (fun _ => none) itemBothCams).camera = some (mk ++ " " ++ md)) ∧
     (∀ mk,
        (⟨none, some "Apple", some "iPhone 15 Pro"⟩ : PhotoFacet).camera_make = some mk →
        (⟨none, some "Apple", some "iPhone 15 Pro"⟩ : PhotoFacet).camera_model = none →
        (drive_item_to_record (fun _ => none) itemBothCams).camera = some mk) ∧
     ((⟨none, some "Apple", some "iPhone 15 Pro"⟩ : PhotoFacet).camera_make = none →
        (drive_item_to_record (fun _ => none) itemBothCams).camera = none)) :=
  ⟨rfl, c8_camera_requires_make (fun _ => none) itemBothCams
    ⟨none, some "Apple", some "iPhone 15 Pro"⟩ rfl⟩

/-- C9: dbscan is panic-free whenever every id is a valid index into the
input (ids are used as slice indices while expanding), and there is an
input — an id 7 among 2 points, close enough to trigger expansion — on
which it panics with an out-of-bounds access. -/
theorem c9_dbscan_id_indexing :
    (∀ (points : List GeoPoint) (dist : GeoPoint → GeoPoint → ℚ) (eps : ℚ)
      (minPts : Nat), (∀ p ∈ points, p.id < points.length) →
      ∃ r, dbscan points dist eps minPts = some r) ∧
    dbscan [⟨0, 0, 0⟩, ⟨7, 0, 0⟩] distZero 1 1 = none := by
  constructor
  · intro points dist eps minPts hb
    exact dbscanLoop_total points dist eps minPts (idSet_bound points hb)
      points ∅ [] 0
  · simp [dbscan, dbscanLoop, expand, find_neighbors, distZero, nextSeeds, idSet]

/-- Witness for C9: a valid-id input runs to completion. -/
theorem c9_dbscan_id_indexing_witness :
    (∀ p ∈ ptSolo, p.id < ptSolo.length) ∧
    (∃ r, dbscan ptSolo distZero 1 2 = some r) :=
  ⟨by decide, c9_dbscan_id_indexing.1 ptSolo distZero 1 2 (by decide)⟩

/-- C10: the filename scanner never panics on ASCII-only basenames, but
panics (slices off a char boundary) on the multi-byte basename
`"12345678é"`. -/
theorem c10_ascii_total_multibyte_panic :
    (∀ s : List Nat, (∀ b ∈ s, b < 128) →
      ∃ r, extract_date_from_filename s = .ok r) ∧
    extract_date_from_filename bytesMultiByte = .error () := by
  constructor
  · intro s hascii
    exact ⟨_, extractFilenameLoop_ascii s hascii (List.range (s.length - 7))
      (fun i hi => by rw [List.mem_range] at hi; omega)⟩
  · rfl

/-- Witness for C10: the ASCII bytes of `"jpg"`. -/
theorem c10_ascii_total_multibyte_panic_witness :
    (∀ b ∈ [106, 112, 103], b < 128) ∧
    (∃ r, extract_date_from_filename [106, 112, 103] = .ok r) :=
  ⟨by decide, c10_ascii_total_multibyte_panic.1 [106, 112, 103] (by decide)⟩

end Sift
